import Mathlib

/-!
Verification of the schematic editor's geometric core (main.py, math_utils.py).

The embedding uses exact integer coordinates: every quantity the verified
claims touch (grid snapping, squared distances, orthogonal corners, rectangle
containment) is integer-valued in the program's reachable states.  pygame's
`Vector2.rotate` is exact for multiples of 90 degrees (the only angles the
program produces, since rotation starts at 0 and changes by ROTATION_STEP=90),
and the embedding covers exactly those.  Python exceptions (out-of-range list
indexing/assignment) are modelled by Option-valued functions returning none.
-/

/-- pygame.math.Vector2, restricted to the integer grid on which the editor
operates. -/
structure Vec2 where
  x : Int
  y : Int
deriving DecidableEq, Repr

instance : Add Vec2 := ⟨fun a b => ⟨a.x + b.x, a.y + b.y⟩⟩

instance : Sub Vec2 := ⟨fun a b => ⟨a.x - b.x, a.y - b.y⟩⟩

/-- Vector2.length_squared(). -/
def Vec2.lengthSquared (v : Vec2) : Int := v.x * v.x + v.y * v.y

/-- pygame Vector2 truthiness: `bool(Vector2(0, 0))` is False, every other
vector is truthy.  main.py's `if mouse:` tests exactly this. -/
def Vec2.isTruthy (v : Vec2) : Bool := !(v.x == 0 && v.y == 0)

def GRID_SIZE : Int := 40

def ROTATION_STEP : Int := 90

def SNAP_RADIUS : Int := 8

/-- the COMPONENT_PINS dict of main.py: local pin offsets per component type. -/
def COMPONENT_PINS : List (String × List Vec2) :=
  [("resistor", [⟨-20, 0⟩, ⟨20, 0⟩])]

/-- rotate_point (main.py): pygame's Vector2.rotate.  pygame special-cases
multiples of 90 degrees and computes them exactly; these are the only angles a
component of this program ever carries (rotation starts at 0 and is changed only
by `(rotation + ROTATION_STEP) % 360`), and the embedding covers exactly them
(other angles, which would go through floating-point trigonometry, are left as
the identity and are never used by the theorems below). -/
def rotate_point (point : Vec2) (angle_deg : Int) : Vec2 :=
  let a := angle_deg % 360
  if a = 0 then point
  else if a = 90 then ⟨-point.y, point.x⟩
  else if a = 180 then ⟨-point.x, -point.y⟩
  else if a = 270 then ⟨point.y, -point.x⟩
  else point

/-- orthogonal_path (main.py / math_utils.py).  `mouse : Option Vec2` embeds the
`mouse: Vector2 = None` default argument; Python's `if mouse:` is falsy both for
None and for the zero vector, so the distance comparison runs only for a truthy
mouse. -/
def orthogonal_path (a b : Vec2) (mouse : Option Vec2) : List Vec2 :=
  if a.x = b.x ∨ a.y = b.y then [b]
  else
    let corner_hv : Vec2 := ⟨b.x, a.y⟩
    let corner_vh : Vec2 := ⟨a.x, b.y⟩
    let corner :=
      match mouse with
      | some m =>
          if m.isTruthy then
            let dist_hv := (corner_hv - m).lengthSquared
            let dist_vh := (corner_vh - m).lengthSquared
            if dist_hv < dist_vh then corner_hv else corner_vh
          else corner_hv
      | none => corner_hv
    [corner, b]

/-- clean_collinear_points, inner loop: `prev` is the last kept point,
`rest` the points not yet scanned (the final one is always kept).  Mirrors the
Python loop, whose candidate is compared against the last kept point and the
original next point. -/
def cleanAux (prev : Vec2) (rest : List Vec2) : List Vec2 :=
  match rest with
  | [] => []
  | [last] => [last]
  | curr :: nxt :: tl =>
      if (prev.x = curr.x ∧ curr.x = nxt.x) ∨ (prev.y = curr.y ∧ curr.y = nxt.y) then
        cleanAux prev (nxt :: tl)
      else
        curr :: cleanAux curr (nxt :: tl)

/-- clean_collinear_points (main.py / math_utils.py). -/
def clean_collinear_points (points : List Vec2) : List Vec2 :=
  if points.length < 3 then points
  else
    match points with
    | [] => []
    | p0 :: rest => p0 :: cleanAux p0 rest

/-- pygame.Rect with integer fields (pygame truncates to integers; all inputs
here are integral). -/
structure Rect where
  x : Int
  y : Int
  w : Int
  h : Int
deriving DecidableEq, Repr

/-- pygame Rect.collidepoint: inclusive of the left and top edges, exclusive of
the right and bottom edges ("a point along the right or bottom edge is not
considered to be inside the rectangle"). -/
def Rect.collidepoint (r : Rect) (p : Vec2) : Bool :=
  decide (r.x ≤ p.x) && decide (p.x < r.x + r.w) &&
  decide (r.y ≤ p.y) && decide (p.y < r.y + r.h)

/-- make_rect (main.py / math_utils.py). -/
def make_rect (a b : Vec2) : Rect :=
  ⟨min a.x b.x, min a.y b.y, |a.x - b.x|, |a.y - b.y|⟩

/-- a component dict: {'type', 'pos', 'rotation'}. -/
structure Component where
  type : String
  pos : Vec2
  rotation : Int
deriving DecidableEq, Repr

/-- get_component_pins (main.py): `COMPONENT_PINS.get(comp['type'], [])`,
each local pin rotated then offset by the component position. -/
def get_component_pins (comp : Component) : List Vec2 :=
  ((COMPONENT_PINS.lookup comp.type).getD []).map
    (fun local_pin => comp.pos + rotate_point local_pin comp.rotation)

/-- Python round() of the exact rational x / g for g > 0: nearest integer,
ties to the even neighbour (banker's rounding), as in `round(pos.x / GRID_SIZE)`. -/
def round_div (x g : Int) : Int :=
  let q := Int.fdiv x g
  let r := x - q * g
  if 2 * r < g then q
  else if g < 2 * r then q + 1
  else if q % 2 = 0 then q else q + 1

/-- snap_to_grid (main.py). -/
def snap_to_grid (pos : Vec2) : Vec2 :=
  ⟨round_div pos.x GRID_SIZE * GRID_SIZE, round_div pos.y GRID_SIZE * GRID_SIZE⟩

/-- the loop body of snap_to_pins: state is (closest, min_dist2); a pin at
squared distance ≤ the current minimum replaces the candidate (note `<=`:
a later pin that ties the minimum wins). -/
def snapStep (mouse_world : Vec2) (st : Option Vec2 × Int) (pin : Vec2) : Option Vec2 × Int :=
  let d2 := (pin - mouse_world).lengthSquared
  if d2 ≤ st.2 then (some pin, d2) else st

/-- snap_to_pins (main.py): scan every pin of every component, starting from
min_dist2 = radius². -/
def snap_to_pins (mouse_world : Vec2) (components : List Component) (radius : Int) :
    Option Vec2 :=
  (components.foldl
    (fun st comp => (get_component_pins comp).foldl (snapStep mouse_world) st)
    (none, radius * radius)).1

/-- a wire dict: 'points' and 'attachments'.  Python stores the attached
component dict by reference; the embedding follows the spec's arena model and
stores the component's index in the scene's component list, so that mutating
the component is seen through the attachment. -/
structure Wire where
  points : List Vec2
  attachments : List (Option (Nat × Nat))
deriving DecidableEq, Repr

/-- update_wire_attachments, inner loop over `enumerate(attachments)` with
running index `i`.  Both unguarded Python indexings are modelled by `none` on
failure: `get_component_pins(comp)[pin_idx]` (IndexError when pin_idx is out of
range) and the assignment `wire['points'][i] = pin_pos` (IndexError when i is
out of range).  `components[cidx]?` resolves the attachment's component
reference in the arena; a Python reference is always resolvable, so a dangling
index has no Python counterpart and is likewise mapped to none. -/
def update_points (components : List Component) :
    Nat → List (Option (Nat × Nat)) → List Vec2 → Option (List Vec2)
  | _, [], pts => some pts
  | i, none :: rest, pts => update_points components (i + 1) rest pts
  | i, some (cidx, pidx) :: rest, pts =>
      match components[cidx]? with
      | none => none
      | some comp =>
          match (get_component_pins comp)[pidx]? with
          | none => none
          | some pin_pos =>
              if i < pts.length then
                update_points components (i + 1) rest (pts.set i pin_pos)
              else none

/-- update_wire_attachments for a single wire: rewrite each attached point to
its pin's current world position; attachments are untouched. -/
def update_wire (components : List Component) (wire : Wire) : Option Wire :=
  (update_points components 0 wire.attachments wire.points).map
    (fun pts => { wire with points := pts })

/-- update_wire_attachments (main.py): the loop over all wires; the first
Python exception aborts the whole pass. -/
def update_wire_attachments (components : List Component) (wires : List Wire) :
    Option (List Wire) :=
  wires.mapM (update_wire components)

/-- drag_components (main.py): new grid-snapped positions for the selected
components (`zip` truncates to the shorter list; the component itself is not
read). -/
def drag_components (selected_components : List Component) (drag_offsets : List Vec2)
    (mouse_world : Vec2) : List Vec2 :=
  (selected_components.zip drag_offsets).map
    (fun co => snap_to_grid (mouse_world + co.2))

/-- writing `comp['pos'] = pos` through an arena index. -/
def set_component_pos (components : List Component) (i : Nat) (p : Vec2) :
    List Component :=
  match components[i]? with
  | some c => components.set i { c with pos := p }
  | none => components

/-- the per-frame drag block of main() (main.py lines 884-893): compute the new
positions with drag_components, write them back to the selected components,
then run update_wire_attachments over the whole wire collection.  `sel` lists
the selected components' arena indices. -/
def drag_step (components : List Component) (wires : List Wire) (sel : List Nat)
    (drag_offsets : List Vec2) (mouse_world : Vec2) :
    List Component × Option (List Wire) :=
  let selected_components := sel.filterMap (fun i => components[i]?)
  let new_positions := drag_components selected_components drag_offsets mouse_world
  let components2 :=
    (sel.zip new_positions).foldl (fun cs ip => set_component_pos cs ip.1 ip.2) components
  (components2, update_wire_attachments components2 wires)

/-- world_to_screen (main.py). -/
def world_to_screen (pos camera_offset : Vec2) : Vec2 := pos - camera_offset

/-- box_select_components (main.py): keep the components whose screen position
collides with the selection rectangle. -/
def box_select_components (components : List Component) (rect : Rect)
    (camera_offset : Vec2) : List Component :=
  components.filter (fun comp => rect.collidepoint (world_to_screen comp.pos camera_offset))

/-- Python list.insert(i, x): insert before position i, append when i ≥ len. -/
def py_insert (l : List α) (i : Nat) (x : α) : List α :=
  l.take i ++ x :: l.drop i

/-- the wire-splice fragment of handle_mouse_button_down (main.py lines
510-517): from the hit segment's start index `idx`, insert every point of the
orthogonal path from points[idx] to the grid-snapped split point (skipping any
equal to the segment start), a matching empty attachment beside each, then run
clean_collinear_points over the point list (the attachments list is left as
is).  `idx` is the segment index find_wire_segment_at_mouse returned, so
points[idx] exists; an out-of-range idx (no Python counterpart) leaves the wire
unchanged. -/
def splice_wire (wire : Wire) (idx : Nat) (clicked_pin mouse_world : Vec2) : Wire :=
  match wire.points[idx]? with
  | none => wire
  | some prev =>
      let st := (orthogonal_path prev clicked_pin (some mouse_world)).foldl
        (fun (st : List Vec2 × List (Option (Nat × Nat)) × Nat) p =>
          if p ≠ prev then
            (py_insert st.1 (st.2.2 + 1) p, py_insert st.2.1 (st.2.2 + 1) none, st.2.2 + 1)
          else st)
        (wire.points, wire.attachments, idx)
      { points := clean_collinear_points st.1, attachments := st.2.1 }

/-- a scene: the unit of undo/redo. -/
abbrev Scene := List Component × List Wire

/-- take_snapshot (main.py): `copy.deepcopy` of the scene.  In the value
semantics of the embedding a deep copy is the value itself; this is exactly
what deepcopy guarantees (no aliasing between the snapshot and the live,
mutable scene). -/
def take_snapshot (components : List Component) (wires : List Wire) : Scene :=
  (components, wires)

/-- undo (main.py).  Python pushes and pops at the end of the stack list; the
embedding keeps the top of each stack at the head.  Returns the two stacks and
the restored scene. -/
def undo (undo_stack redo_stack : List Scene) (components : List Component)
    (wires : List Wire) : List Scene × List Scene × Scene :=
  match undo_stack with
  | [] => (undo_stack, redo_stack, (components, wires))
  | state :: rest => (rest, take_snapshot components wires :: redo_stack, state)

/-- redo (main.py), symmetric to undo. -/
def redo (undo_stack redo_stack : List Scene) (components : List Component)
    (wires : List Wire) : List Scene × List Scene × Scene :=
  match redo_stack with
  | [] => (undo_stack, redo_stack, (components, wires))
  | state :: rest => (take_snapshot components wires :: undo_stack, rest, state)

/-- record_undo (main.py): push a snapshot, clear the redo stack. -/
def record_undo (components : List Component) (wires : List Wire)
    (undo_stack redo_stack : List Scene) : List Scene × List Scene :=
  (take_snapshot components wires :: undo_stack, [])

/-- the spec's `rect.contains(point)`: containment inclusive of all four edges
of the rectangle, stated for comparison with the code's Rect.collidepoint. -/
def rect_contains_inclusive (r : Rect) (p : Vec2) : Bool :=
  decide (r.x ≤ p.x) && decide (p.x ≤ r.x + r.w) &&
  decide (r.y ≤ p.y) && decide (p.y ≤ r.y + r.h)

/-- decidable well-formedness of one wire against the component arena: the two
parallel lists have equal length (the spec's Wire invariant) and every
non-empty attachment names an existing component and a pin index within that
component's derived pin list. -/
def wire_wf (components : List Component) (wire : Wire) : Bool :=
  (wire.attachments.length == wire.points.length) &&
  wire.attachments.all (fun att =>
    match att with
    | none => true
    | some (cidx, pidx) =>
        match components[cidx]? with
        | none => false
        | some comp => decide (pidx < (get_component_pins comp).length))

/-- decidable well-formedness of a whole scene's wire collection. -/
def scene_wf (components : List Component) (wires : List Wire) : Bool :=
  wires.all (wire_wf components)

/-! ## Concrete scenes used by the counterexamples and witnesses -/

/-- a straight horizontal wire between two grid points, unattached. -/
def spliceDemoWire : Wire := { points := [⟨0, 0⟩, ⟨80, 0⟩], attachments := [none, none] }

/-- the point sequence on which collinear cleanup is not idempotent. -/
def c4Points : List Vec2 := [⟨0, 0⟩, ⟨10, 0⟩, ⟨10, 5⟩, ⟨10, 0⟩, ⟨20, 0⟩]

/-- a resistor at the origin, unrotated: pins (-20,0) and (20,0). -/
def snapDemo1 : Component := { type := "resistor", pos := ⟨0, 0⟩, rotation := 0 }

/-- a resistor at the origin rotated 90 degrees: pins (0,-20) and (0,20). -/
def snapDemo2 : Component := { type := "resistor", pos := ⟨0, 0⟩, rotation := 90 }

/-- a component sitting exactly on the bottom-right corner of the selection
rectangle drawn from (0,0) to (10,10). -/
def edgeComp : Component := { type := "resistor", pos := ⟨10, 10⟩, rotation := 0 }

/-- a wire whose attachment indices satisfy the pin-index precondition but
whose points list is too short for the attachment's position. -/
def shortWire : Wire := { points := [], attachments := [some (0, 0)] }

/-- a wire attached to the first pin of the component at arena index 0. -/
def dragDemoWire : Wire :=
  { points := [⟨-20, 0⟩, ⟨100, 0⟩], attachments := [some (0, 0), none] }

/-- C1: splicing the wire [(0,0),(80,0)] at a click near (40,1) grid-snaps the
split point to (40,0), inserts it (with an empty attachment) after index 0, and
the collinear cleanup then removes it from the points list only: the wire ends
with 2 points but 3 attachments, breaking the equal-length invariant the spec
demands of a Wire. -/
theorem splice_length_invariant_bug :
    spliceDemoWire.points.length = spliceDemoWire.attachments.length ∧
    (splice_wire spliceDemoWire 0 (snap_to_grid ⟨40, 0⟩) ⟨40, 1⟩).points.length = 2 ∧
    (splice_wire spliceDemoWire 0 (snap_to_grid ⟨40, 0⟩) ⟨40, 1⟩).attachments.length = 3 := by
  decide

/-- C4 counterexample: on [(0,0),(10,0),(10,5),(10,0),(20,0)] the first cleanup
pass yields [(0,0),(10,0),(20,0)] (the kept point (10,0) was checked against
its original neighbour (10,5), later dropped), and a second pass removes
(10,0), so cleanup is not idempotent. -/
theorem clean_collinear_points_not_idempotent :
    clean_collinear_points (clean_collinear_points c4Points) ≠
      clean_collinear_points c4Points := by
  decide

/-- C5 counterexample: with a = (0,0), b = (2,2) and reference m = (1,1) the two
corners (2,0) and (0,2) are equidistant from m, and the code returns the
vertical-then-horizontal corner (0,2), not the claimed horizontal-then-vertical
(2,0); moreover with reference m = (0,0) (falsy zero vector) the code ignores
the reference and returns the horizontal-then-vertical corner although the
other corner is strictly closer to m. -/
theorem orthogonal_path_reference_counterexample :
    ((⟨2, 0⟩ - ⟨1, 1⟩ : Vec2).lengthSquared = (⟨0, 2⟩ - ⟨1, 1⟩ : Vec2).lengthSquared) ∧
    orthogonal_path ⟨0, 0⟩ ⟨2, 2⟩ (some ⟨1, 1⟩) = [⟨0, 2⟩, ⟨2, 2⟩] ∧
    ((⟨0, 2⟩ : Vec2) ≠ ⟨2, 0⟩) ∧
    orthogonal_path ⟨1, 10⟩ ⟨10, 1⟩ (some ⟨0, 0⟩) = [⟨10, 10⟩, ⟨10, 1⟩] ∧
    ((⟨1, 1⟩ - ⟨0, 0⟩ : Vec2).lengthSquared < (⟨10, 10⟩ - ⟨0, 0⟩ : Vec2).lengthSquared) := by
  decide

/-- C6 counterexample: pointer (0,0), radius 20, two overlapping resistors (one
rotated 90 degrees) put pins at (-20,0), (20,0), (0,-20), (0,20), all at
squared distance 400 = radius²; the first minimal candidate in iteration order
is (-20,0), but the code's `<=` update returns the last one, (0,20). -/
theorem snap_to_pins_last_tie_counterexample :
    (get_component_pins snapDemo1).head? = some ⟨-20, 0⟩ ∧
    ((⟨-20, 0⟩ - ⟨0, 0⟩ : Vec2).lengthSquared ≤ 20 * 20) ∧
    ((⟨-20, 0⟩ - ⟨0, 0⟩ : Vec2).lengthSquared = (⟨0, 20⟩ - ⟨0, 0⟩ : Vec2).lengthSquared) ∧
    snap_to_pins ⟨0, 0⟩ [snapDemo1, snapDemo2] 20 = some ⟨0, 20⟩ ∧
    ((⟨0, 20⟩ : Vec2) ≠ ⟨-20, 0⟩) := by
  decide

/-- C7 counterexample: the component at screen position (10,10) lies on the
bottom-right corner of the rectangle from (0,0) to (10,10) — inside under
all-edges-inclusive containment — yet box selection returns nothing, because
pygame's collidepoint excludes the right and bottom edges. -/
theorem box_select_edge_counterexample :
    rect_contains_inclusive (make_rect ⟨0, 0⟩ ⟨10, 10⟩)
      (world_to_screen edgeComp.pos ⟨0, 0⟩) = true ∧
    box_select_components [edgeComp] (make_rect ⟨0, 0⟩ ⟨10, 10⟩) ⟨0, 0⟩ = [] := by
  decide

/-- C9 counterexample: the wire { points = [], attachments = [some (0,0)] }
satisfies the claimed precondition (pin index 0 < 2 pins of the resistor), yet
update_wire_attachments fails: the write `wire['points'][0] = pin_pos` indexes
an empty points list. -/
theorem update_wire_attachments_needs_points_bound :
    (0 < (get_component_pins snapDemo1).length) ∧
    update_wire_attachments [snapDemo1] [shortWire] = none := by
  decide

/-- C3: record a snapshot of scene s0, mutate the scene to s1; undo restores a
scene equal in value to s0 (pushing a snapshot of s1 onto the redo stack), and
redo from that state restores s1.  Snapshots are values of the embedding, so
no restored scene shares mutable data with the stacks, which is what
copy.deepcopy establishes in the source. -/
theorem undo_redo_round_trip (us rs : List Scene) (s0 s1 : Scene) :
    undo (record_undo s0.1 s0.2 us rs).1 (record_undo s0.1 s0.2 us rs).2 s1.1 s1.2
      = (us, [take_snapshot s1.1 s1.2], s0) ∧
    redo us [take_snapshot s1.1 s1.2] s0.1 s0.2
      = (take_snapshot s0.1 s0.2 :: us, [], s1) := by
  constructor <;> rfl

/-- C8: undo with an empty undo stack and redo with an empty redo stack return
the scene unchanged and leave both stacks unchanged. -/
theorem undo_redo_empty_stack_noop (us rs : List Scene) (components : List Component)
    (wires : List Wire) :
    undo [] rs components wires = ([], rs, (components, wires)) ∧
    redo us [] components wires = (us, [], (components, wires)) := by
  constructor <;> rfl

/-! ## Shape of orthogonal paths (C10, C5) -/

/-- C10: orthogonal_path always yields an axis-aligned polyline of 1 or 2
points ending at b: prefixed with the start point a, consecutive points agree
in x or in y. -/
theorem orthogonal_path_shape (a b : Vec2) (mouse : Option Vec2) :
    ((orthogonal_path a b mouse).length = 1 ∨ (orthogonal_path a b mouse).length = 2) ∧
    (orthogonal_path a b mouse).getLast? = some b ∧
    List.Chain' (fun p q : Vec2 => p.x = q.x ∨ p.y = q.y) (a :: orthogonal_path a b mouse) := by
  have corners : ∀ c : Vec2, c = ⟨b.x, a.y⟩ ∨ c = ⟨a.x, b.y⟩ →
      (([c, b] : List Vec2).length = 1 ∨ ([c, b] : List Vec2).length = 2) ∧
      ([c, b] : List Vec2).getLast? = some b ∧
      List.Chain' (fun p q : Vec2 => p.x = q.x ∨ p.y = q.y) (a :: [c, b]) := by
    rintro c (rfl | rfl) <;> exact ⟨Or.inr rfl, rfl, by simp [List.chain'_cons]⟩
  unfold orthogonal_path
  split
  case isTrue h => exact ⟨Or.inl rfl, rfl, by simp [List.chain'_cons, h]⟩
  case isFalse h =>
    dsimp only
    rcases mouse with _ | m
    · exact corners _ (Or.inl rfl)
    · dsimp only
      split_ifs with h1 h2
      · exact corners _ (Or.inl rfl)
      · exact corners _ (Or.inr rfl)
      · exact corners _ (Or.inl rfl)

/-- C5 amended: for non-aligned endpoints and a reference point that is not the
zero vector, the returned path is [corner, b] where corner is one of the two
candidate corners, its squared distance to the reference is minimal among the
two, and on a tie the vertical-then-horizontal corner (a.x, b.y) is chosen. -/
theorem orthogonal_path_reference_choice (a b m : Vec2)
    (hx : a.x ≠ b.x) (hy : a.y ≠ b.y) (hm : m ≠ ⟨0, 0⟩) :
    ∃ corner : Vec2,
      orthogonal_path a b (some m) = [corner, b] ∧
      (corner = ⟨b.x, a.y⟩ ∨ corner = ⟨a.x, b.y⟩) ∧
      (corner - m).lengthSquared ≤ ((⟨b.x, a.y⟩ : Vec2) - m).lengthSquared ∧
      (corner - m).lengthSquared ≤ ((⟨a.x, b.y⟩ : Vec2) - m).lengthSquared ∧
      (((⟨b.x, a.y⟩ : Vec2) - m).lengthSquared = ((⟨a.x, b.y⟩ : Vec2) - m).lengthSquared →
        corner = ⟨a.x, b.y⟩) := by
  have htr : m.isTruthy = true := by
    have h0 : ¬(m.x = 0 ∧ m.y = 0) := by
      rintro ⟨h1, h2⟩
      exact hm (by cases m; simp_all)
    simp [Vec2.isTruthy]
    tauto
  have hne : ¬(a.x = b.x ∨ a.y = b.y) := by push_neg; exact ⟨hx, hy⟩
  by_cases hlt :
      ((⟨b.x, a.y⟩ : Vec2) - m).lengthSquared < ((⟨a.x, b.y⟩ : Vec2) - m).lengthSquared
  · refine ⟨⟨b.x, a.y⟩, ?_, Or.inl rfl, le_refl _, le_of_lt hlt,
      fun he => absurd (he ▸ hlt) (lt_irrefl _)⟩
    simp [orthogonal_path, hne, htr, hlt]
  · refine ⟨⟨a.x, b.y⟩, ?_, Or.inr rfl, le_of_not_lt hlt, le_refl _, fun _ => rfl⟩
    simp [orthogonal_path, hne, htr, hlt]

/-- witness for the amended C5 at a = (0,0), b = (10,10), m = (9,1). -/
theorem orthogonal_path_reference_choice_witness :
    ∃ corner : Vec2,
      orthogonal_path ⟨0, 0⟩ ⟨10, 10⟩ (some ⟨9, 1⟩) = [corner, ⟨10, 10⟩] ∧
      (corner = ⟨10, 0⟩ ∨ corner = ⟨0, 10⟩) ∧
      (corner - ⟨9, 1⟩).lengthSquared ≤ ((⟨10, 0⟩ : Vec2) - ⟨9, 1⟩).lengthSquared ∧
      (corner - ⟨9, 1⟩).lengthSquared ≤ ((⟨0, 10⟩ : Vec2) - ⟨9, 1⟩).lengthSquared ∧
      (((⟨10, 0⟩ : Vec2) - ⟨9, 1⟩).lengthSquared = ((⟨0, 10⟩ : Vec2) - ⟨9, 1⟩).lengthSquared →
        corner = ⟨0, 10⟩) :=
  orthogonal_path_reference_choice ⟨0, 0⟩ ⟨10, 10⟩ ⟨9, 1⟩ (by decide) (by decide) (by decide)

/-! ## Collinear cleanup: structural lemmas (C4) -/

lemma cleanAux_sublist (prev : Vec2) (rest : List Vec2) :
    (cleanAux prev rest).Sublist rest := by
  induction rest generalizing prev with
  | nil => simp [cleanAux]
  | cons curr rest ih =>
    cases rest with
    | nil => simp [cleanAux]
    | cons nxt tl =>
      rw [cleanAux]
      split
      · exact (ih prev).cons curr
      · exact (ih curr).cons₂ curr

lemma cleanAux_ne_nil (prev : Vec2) (rest : List Vec2) (h : rest ≠ []) :
    cleanAux prev rest ≠ [] := by
  induction rest generalizing prev with
  | nil => exact absurd rfl h
  | cons curr rest ih =>
    cases rest with
    | nil => simp [cleanAux]
    | cons nxt tl =>
      rw [cleanAux]
      split
      · exact ih prev (by simp)
      · simp

lemma getLast?_cons_of_ne_nil (a : α) (l : List α) (h : l ≠ []) :
    (a :: l).getLast? = l.getLast? := by
  obtain ⟨x, xs, rfl⟩ := List.exists_cons_of_ne_nil h
  exact List.getLast?_cons_cons

lemma cleanAux_getLast? (prev : Vec2) (rest : List Vec2) :
    (cleanAux prev rest).getLast? = rest.getLast? := by
  induction rest generalizing prev with
  | nil => rfl
  | cons curr rest ih =>
    cases rest with
    | nil => rfl
    | cons nxt tl =>
      rw [cleanAux]
      split
      · rw [ih prev, List.getLast?_cons_cons]
      · rw [getLast?_cons_of_ne_nil curr _ (cleanAux_ne_nil curr (nxt :: tl) (by simp)),
          ih curr, List.getLast?_cons_cons]

lemma clean_collinear_points_sublist (points : List Vec2) :
    (clean_collinear_points points).Sublist points := by
  unfold clean_collinear_points
  split
  · exact List.Sublist.refl _
  · split
    · exact List.Sublist.refl _
    · exact (cleanAux_sublist _ _).cons₂ _

lemma clean_collinear_points_head? (points : List Vec2) :
    (clean_collinear_points points).head? = points.head? := by
  unfold clean_collinear_points
  split
  · rfl
  · split
    · rfl
    · rfl

lemma clean_collinear_points_getLast? (points : List Vec2) :
    (clean_collinear_points points).getLast? = points.getLast? := by
  unfold clean_collinear_points
  split
  · rfl
  case isFalse hlen =>
    cases points with
    | nil => rfl
    | cons p0 rest =>
      cases rest with
      | nil => exact absurd (by simp) hlen
      | cons r rs =>
        rw [getLast?_cons_of_ne_nil p0 _ (cleanAux_ne_nil p0 (r :: rs) (by simp)),
          cleanAux_getLast?, List.getLast?_cons_cons]

/-- C4 amended: a second cleanup pass never adds, reorders or relocates points:
it yields a sublist of the first pass's output with the same first and last
points (idempotence itself fails, see the counterexample). -/
theorem clean_collinear_points_second_pass (P : List Vec2) :
    (clean_collinear_points (clean_collinear_points P)).Sublist (clean_collinear_points P) ∧
    (clean_collinear_points (clean_collinear_points P)).head? = (clean_collinear_points P).head? ∧
    (clean_collinear_points (clean_collinear_points P)).getLast? =
      (clean_collinear_points P).getLast? :=
  ⟨clean_collinear_points_sublist _, clean_collinear_points_head? _,
    clean_collinear_points_getLast? _⟩

/-! ## Box selection (C7) -/

lemma min_add_abs_sub (x y : Int) : min x y + |x - y| = max x y := by
  rcases le_total x y with h | h
  · rw [min_eq_left h, max_eq_right h, abs_of_nonpos (sub_nonpos.mpr h)]
    omega
  · rw [min_eq_right h, max_eq_left h, abs_of_nonneg (sub_nonneg.mpr h)]
    omega

/-- C7 amended: a component is in the box-selection result iff it is in the
component list and its screen position lies in the rectangle spanned by the two
corners, inclusively on the left and top edges and exclusively on the right and
bottom edges (pygame collidepoint). -/
theorem box_select_membership (components : List Component) (a b camera_offset : Vec2)
    (comp : Component) :
    comp ∈ box_select_components components (make_rect a b) camera_offset ↔
      comp ∈ components ∧
        min a.x b.x ≤ (world_to_screen comp.pos camera_offset).x ∧
        (world_to_screen comp.pos camera_offset).x < max a.x b.x ∧
        min a.y b.y ≤ (world_to_screen comp.pos camera_offset).y ∧
        (world_to_screen comp.pos camera_offset).y < max a.y b.y := by
  unfold box_select_components Rect.collidepoint make_rect
  simp only [List.mem_filter, Bool.and_eq_true, decide_eq_true_eq, min_add_abs_sub]
  tauto

/-! ## Pin snapping (C6) -/

lemma foldl_flatMap_pins (m : Vec2) (components : List Component) :
    ∀ init : Option Vec2 × Int,
      components.foldl (fun st comp => (get_component_pins comp).foldl (snapStep m) st) init =
        (components.flatMap get_component_pins).foldl (snapStep m) init := by
  induction components with
  | nil => intro init; rfl
  | cons c cs ih =>
    intro init
    rw [List.foldl_cons, ih, List.flatMap_cons, List.foldl_append]

lemma snapFold_unchanged (m : Vec2) (pins : List Vec2) :
    ∀ (c : Option Vec2) (d : Int), (∀ x ∈ pins, d < (x - m).lengthSquared) →
      pins.foldl (snapStep m) (c, d) = (c, d) := by
  induction pins with
  | nil => intro c d _; rfl
  | cons p ps ih =>
    intro c d h
    have hp : d < (p - m).lengthSquared := h p (by simp)
    have hstep : snapStep m (c, d) p = (c, d) := by
      unfold snapStep
      rw [if_neg (not_le.mpr hp)]
    rw [List.foldl_cons, hstep]
    exact ih c d (fun x hx => h x (by simp [hx]))

lemma snapFold_spec (m : Vec2) (pins : List Vec2) :
    ∀ (c : Option Vec2) (d : Int),
      ((pins.foldl (snapStep m) (c, d)).1 = none →
        c = none ∧ (pins.foldl (snapStep m) (c, d)).2 = d ∧
          ∀ x ∈ pins, d < (x - m).lengthSquared) ∧
      (∀ q, (pins.foldl (snapStep m) (c, d)).1 = some q →
        (c = some q ∧ (pins.foldl (snapStep m) (c, d)).2 = d ∧
          ∀ x ∈ pins, d < (x - m).lengthSquared) ∨
        (∃ l1 l2, pins = l1 ++ q :: l2 ∧
          (pins.foldl (snapStep m) (c, d)).2 = (q - m).lengthSquared ∧
          (q - m).lengthSquared ≤ d ∧
          (∀ x ∈ l1, (q - m).lengthSquared ≤ (x - m).lengthSquared) ∧
          (∀ x ∈ l2, (q - m).lengthSquared < (x - m).lengthSquared))) := by
  induction pins with
  | nil =>
    intro c d
    constructor
    · intro h; exact ⟨h, rfl, by simp⟩
    · intro q h; exact Or.inl ⟨h, rfl, by simp⟩
  | cons p ps ih =>
    intro c d
    rw [List.foldl_cons]
    by_cases hp : (p - m).lengthSquared ≤ d
    · have hstep : snapStep m (c, d) p = (some p, (p - m).lengthSquared) := by
        unfold snapStep; rw [if_pos hp]
      rw [hstep]
      obtain ⟨ihn, ihs⟩ := ih (some p) ((p - m).lengthSquared)
      constructor
      · intro h
        exact absurd (ihn h).1 (by simp)
      · intro q h
        rcases ihs q h with ⟨hc, hd2, hall⟩ | ⟨l1, l2, hsplit, hd2, hle, h1, h2⟩
        · obtain rfl : p = q := Option.some.inj hc
          exact Or.inr ⟨[], ps, rfl, hd2, hp, by simp, hall⟩
        · refine Or.inr ⟨p :: l1, l2, by simp [hsplit], hd2, le_trans hle hp, ?_, h2⟩
          intro x hx
          rcases List.mem_cons.mp hx with rfl | hx'
          · exact hle
          · exact h1 x hx'
    · have hstep : snapStep m (c, d) p = (c, d) := by
        unfold snapStep; rw [if_neg hp]
      rw [hstep]
      obtain ⟨ihn, ihs⟩ := ih c d
      have hpd : d < (p - m).lengthSquared := not_le.mp hp
      constructor
      · intro h
        obtain ⟨hc, hd2, hall⟩ := ihn h
        refine ⟨hc, hd2, fun x hx => ?_⟩
        rcases List.mem_cons.mp hx with rfl | hx'
        · exact hpd
        · exact hall x hx'
      · intro q h
        rcases ihs q h with ⟨hc, hd2, hall⟩ | ⟨l1, l2, hsplit, hd2, hle, h1, h2⟩
        · refine Or.inl ⟨hc, hd2, fun x hx => ?_⟩
          rcases List.mem_cons.mp hx with rfl | hx'
          · exact hpd
          · exact hall x hx'
        · refine Or.inr ⟨p :: l1, l2, by simp [hsplit], hd2, hle, ?_, h2⟩
          intro x hx
          rcases List.mem_cons.mp hx with rfl | hx'
          · exact le_of_lt (lt_of_le_of_lt hle hpd)
          · exact h1 x hx'

/-- C6 amended: snap_to_pins returns none iff no pin of any component lies
within the (inclusive) radius, and when it returns a pin q, q attains the
minimal squared distance among all pins in component-then-pin iteration order
and is the LAST pin attaining it (every pin after q in the scan is strictly
farther; the code's `<=` comparison lets later ties replace earlier ones). -/
theorem snap_to_pins_characterisation (mouse_world : Vec2) (components : List Component)
    (radius : Int) :
    (snap_to_pins mouse_world components radius = none ↔
      ∀ pin ∈ components.flatMap get_component_pins,
        radius * radius < (pin - mouse_world).lengthSquared) ∧
    (∀ q, snap_to_pins mouse_world components radius = some q →
      ∃ l1 l2, components.flatMap get_component_pins = l1 ++ q :: l2 ∧
        (q - mouse_world).lengthSquared ≤ radius * radius ∧
        (∀ x ∈ l1, (q - mouse_world).lengthSquared ≤ (x - mouse_world).lengthSquared) ∧
        (∀ x ∈ l2, (q - mouse_world).lengthSquared < (x - mouse_world).lengthSquared)) := by
  have heq : snap_to_pins mouse_world components radius =
      ((components.flatMap get_component_pins).foldl (snapStep mouse_world)
        (none, radius * radius)).1 := by
    unfold snap_to_pins
    rw [foldl_flatMap_pins]
  obtain ⟨hn, hs⟩ := snapFold_spec mouse_world (components.flatMap get_component_pins)
    none (radius * radius)
  constructor
  · constructor
    · intro h
      rw [heq] at h
      exact (hn h).2.2
    · intro h
      rw [heq, snapFold_unchanged mouse_world _ none (radius * radius) h]
  · intro q h
    rw [heq] at h
    rcases hs q h with ⟨hc, _, _⟩ | ⟨l1, l2, hsplit, _, hle, h1, h2⟩
    · exact absurd hc (by simp)
    · exact ⟨l1, l2, hsplit, hle, h1, h2⟩

/-! ## Attachment re-resolution (C2, C9) -/

lemma mem_of_getElem?_eq_some {l : List α} {k : Nat} {a : α} (h : l[k]? = some a) :
    a ∈ l := by
  obtain ⟨hk, rfl⟩ := List.getElem?_eq_some.mp h
  exact List.getElem_mem hk

lemma wire_wf_spec (components : List Component) (w : Wire)
    (h : wire_wf components w = true) :
    w.attachments.length = w.points.length ∧
    ∀ (k cidx pidx : Nat), w.attachments[k]? = some (some (cidx, pidx)) →
      ∃ comp, components[cidx]? = some comp ∧ pidx < (get_component_pins comp).length := by
  unfold wire_wf at h
  rw [Bool.and_eq_true] at h
  obtain ⟨hlen, hall⟩ := h
  refine ⟨by simpa using hlen, ?_⟩
  intro k cidx pidx hk
  have hmem : (some (cidx, pidx) : Option (Nat × Nat)) ∈ w.attachments :=
    mem_of_getElem?_eq_some hk
  have hone := List.all_eq_true.mp hall _ hmem
  dsimp only at hone
  cases hc : components[cidx]? with
  | none => rw [hc] at hone; exact absurd hone (by simp)
  | some comp =>
    rw [hc] at hone
    exact ⟨comp, rfl, of_decide_eq_true hone⟩

lemma update_points_spec (components : List Component) (atts : List (Option (Nat × Nat))) :
    ∀ (i : Nat) (pts : List Vec2),
      (∀ k cidx pidx, atts[k]? = some (some (cidx, pidx)) →
        (∃ comp, components[cidx]? = some comp ∧ pidx < (get_component_pins comp).length) ∧
        i + k < pts.length) →
      ∃ pts', update_points components i atts pts = some pts' ∧
        pts'.length = pts.length ∧
        (∀ j, j < i → pts'[j]? = pts[j]?) ∧
        (∀ k cidx pidx, atts[k]? = some (some (cidx, pidx)) →
          ∃ comp, components[cidx]? = some comp ∧
            pts'[i + k]? = (get_component_pins comp)[pidx]?) := by
  induction atts with
  | nil =>
    intro i pts _
    exact ⟨pts, rfl, rfl, fun j _ => rfl, fun k cidx pidx hk => absurd hk (by simp)⟩
  | cons att rest ih =>
    intro i pts hpre
    cases att with
    | none =>
      obtain ⟨pts', heq, hlen, hbelow, hatt⟩ := ih (i + 1) pts
        (fun k cidx pidx hk => by
          obtain ⟨h1, h2⟩ := hpre (k + 1) cidx pidx (by simpa using hk)
          exact ⟨h1, by omega⟩)
      refine ⟨pts', by simpa only [update_points] using heq,
        hlen, fun j hj => hbelow j (by omega), ?_⟩
      intro k cidx pidx hk
      cases k with
      | zero => simp at hk
      | succ k2 =>
        obtain ⟨comp, hc, hp⟩ := hatt k2 cidx pidx (by simpa using hk)
        refine ⟨comp, hc, ?_⟩
        have hidx : i + (k2 + 1) = i + 1 + k2 := by omega
        rw [hidx]
        exact hp
    | some cp =>
      obtain ⟨cidx, pidx⟩ := cp
      obtain ⟨⟨comp, hcomp, hpin⟩, hi⟩ := hpre 0 cidx pidx (by simp)
      have hi2 : i < pts.length := by omega
      have hpineq : (get_component_pins comp)[pidx]? = some (get_component_pins comp)[pidx] :=
        List.getElem?_eq_getElem hpin
      obtain ⟨pts', heq, hlen, hbelow, hatt⟩ := ih (i + 1) (pts.set i (get_component_pins comp)[pidx])
        (fun k c p hk => by
          obtain ⟨h1, h2⟩ := hpre (k + 1) c p (by simpa using hk)
          exact ⟨h1, by rw [List.length_set]; omega⟩)
      refine ⟨pts', ?_, by rw [hlen, List.length_set], fun j hj => ?_, ?_⟩
      · have hstep : update_points components i (some (cidx, pidx) :: rest) pts =
            update_points components (i + 1) rest (pts.set i (get_component_pins comp)[pidx]) := by
          simp only [update_points, hcomp, hpineq, hi2, if_true]
        rw [hstep]
        exact heq
      · rw [hbelow j (by omega), List.getElem?_set_ne (by omega)]
      · intro k c p hk
        cases k with
        | zero =>
          simp only [List.getElem?_cons_zero, Option.some.injEq] at hk
          injection hk with h1 h2
          subst h1
          subst h2
          refine ⟨comp, hcomp, ?_⟩
          rw [Nat.add_zero, hbelow i (by omega), List.getElem?_set_self hi2, hpineq]
        | succ k2 =>
          obtain ⟨comp2, hc2, hp2⟩ := hatt k2 c p (by simpa using hk)
          refine ⟨comp2, hc2, ?_⟩
          have hidx : i + (k2 + 1) = i + 1 + k2 := by omega
          rw [hidx]
          exact hp2

lemma update_wire_spec (components : List Component) (w : Wire)
    (h : wire_wf components w = true) :
    ∃ w', update_wire components w = some w' ∧
      w'.attachments = w.attachments ∧ w'.points.length = w.points.length ∧
      ∀ (i cidx pidx : Nat), w'.attachments[i]? = some (some (cidx, pidx)) →
        ∃ comp, components[cidx]? = some comp ∧
          w'.points[i]? = (get_component_pins comp)[pidx]? := by
  obtain ⟨hlen, hval⟩ := wire_wf_spec components w h
  obtain ⟨pts', heq, hplen, _, hatt⟩ := update_points_spec components w.attachments 0 w.points
    (fun k cidx pidx hk => by
      refine ⟨hval k cidx pidx hk, ?_⟩
      have hk2 : k < w.attachments.length := by
        by_contra hge
        rw [List.getElem?_eq_none (by omega)] at hk
        cases hk
      omega)
  refine ⟨{ w with points := pts' }, ?_, rfl, hplen, ?_⟩
  · unfold update_wire
    rw [heq]
    rfl
  · intro i cidx pidx hi
    obtain ⟨comp, hc, hp⟩ := hatt i cidx pidx hi
    exact ⟨comp, hc, by simpa using hp⟩

lemma mapM_update_wire_spec (components : List Component) :
    ∀ wires : List Wire, (∀ w ∈ wires, wire_wf components w = true) →
      ∃ wires', wires.mapM (update_wire components) = some wires' ∧
        ∀ w' ∈ wires', ∀ (i cidx pidx : Nat),
          w'.attachments[i]? = some (some (cidx, pidx)) →
          ∃ comp, components[cidx]? = some comp ∧
            w'.points[i]? = (get_component_pins comp)[pidx]? := by
  intro wires
  induction wires with
  | nil => exact fun _ => ⟨[], rfl, by simp⟩
  | cons w ws ih =>
    intro h
    obtain ⟨w', hw', _, _, hprop⟩ := update_wire_spec components w (h w (by simp))
    obtain ⟨ws', hws', hprops⟩ := ih (fun x hx => h x (by simp [hx]))
    refine ⟨w' :: ws', ?_, ?_⟩
    · rw [List.mapM_cons, hw', hws']
      rfl
    · intro w2 hw2
      rcases List.mem_cons.mp hw2 with rfl | hmem
      · exact hprop
      · exact hprops w2 hmem

/-- C9 amended: pin-index validity alone is not enough (see the counterexample);
adding the Wire length invariant (each attachment position backed by a point,
here via equal list lengths) makes every indexing in update_wire_attachments
in-range: the pass totally succeeds and afterwards every attached point equals
the world position of its pin. -/
theorem update_wire_attachments_safe (components : List Component) (wires : List Wire)
    (h : scene_wf components wires = true) :
    ∃ wires', update_wire_attachments components wires = some wires' ∧
      ∀ w' ∈ wires', ∀ (i cidx pidx : Nat),
        w'.attachments[i]? = some (some (cidx, pidx)) →
        ∃ comp, components[cidx]? = some comp ∧
          w'.points[i]? = (get_component_pins comp)[pidx]? := by
  unfold scene_wf at h
  rw [List.all_eq_true] at h
  exact mapM_update_wire_spec components wires h

/-- witness for the amended C9: one resistor, one wire attached to its second
pin. -/
theorem update_wire_attachments_safe_witness :
    ∃ wires', update_wire_attachments [snapDemo1]
        [{ points := [⟨9, 9⟩], attachments := [some (0, 1)] }] = some wires' ∧
      ∀ w' ∈ wires', ∀ (i cidx pidx : Nat),
        w'.attachments[i]? = some (some (cidx, pidx)) →
        ∃ comp, [snapDemo1][cidx]? = some comp ∧
          w'.points[i]? = (get_component_pins comp)[pidx]? :=
  update_wire_attachments_safe [snapDemo1]
    [{ points := [⟨9, 9⟩], attachments := [some (0, 1)] }] (by decide)

lemma set_component_pos_type (components : List Component) (i : Nat) (p : Vec2) (j : Nat) :
    ((set_component_pos components i p)[j]?).map Component.type =
      (components[j]?).map Component.type := by
  unfold set_component_pos
  cases h : components[i]? with
  | none => rfl
  | some c =>
    by_cases hij : i = j
    · subst hij
      have hi : i < components.length := (List.getElem?_eq_some.mp h).1
      rw [List.getElem?_set_self hi, h]
      rfl
    · rw [List.getElem?_set_ne hij]

lemma drag_writes_preserve_type (l : List (Nat × Vec2)) :
    ∀ (components : List Component) (j : Nat),
      ((l.foldl (fun cs ip => set_component_pos cs ip.1 ip.2) components)[j]?).map
          Component.type =
        (components[j]?).map Component.type := by
  induction l with
  | nil => intro components j; rfl
  | cons ip l ih =>
    intro components j
    rw [List.foldl_cons, ih, set_component_pos_type]

lemma get_component_pins_length_of_type {c c' : Component} (h : c.type = c'.type) :
    (get_component_pins c).length = (get_component_pins c').length := by
  simp [get_component_pins, h]

lemma wire_wf_of_type_eq (components components' : List Component)
    (htype : ∀ j : Nat,
      (components'[j]?).map Component.type = (components[j]?).map Component.type)
    (w : Wire) (h : wire_wf components w = true) :
    wire_wf components' w = true := by
  unfold wire_wf at h ⊢
  rw [Bool.and_eq_true] at h ⊢
  refine ⟨h.1, ?_⟩
  rw [List.all_eq_true]
  intro att hmem
  have hone := List.all_eq_true.mp h.2 att hmem
  cases att with
  | none => rfl
  | some cp =>
    obtain ⟨cidx, pidx⟩ := cp
    dsimp only at hone ⊢
    cases hc : components[cidx]? with
    | none => rw [hc] at hone; exact absurd hone (by simp)
    | some comp =>
      rw [hc] at hone
      have ht := htype cidx
      rw [hc] at ht
      cases hc' : components'[cidx]? with
      | none => rw [hc'] at ht; simp at ht
      | some comp' =>
        rw [hc'] at ht
        simp at ht
        have hone2 : decide (pidx < (get_component_pins comp).length) = true := hone
        have hl : (get_component_pins comp').length = (get_component_pins comp).length :=
          get_component_pins_length_of_type ht
        show decide (pidx < (get_component_pins comp').length) = true
        exact decide_eq_true (by rw [hl]; exact of_decide_eq_true hone2)

/-- C2: one drag frame — grid-snapped positions written to the selected
components, then the attachment re-resolution pass over the whole wire
collection — re-establishes the attachment invariant: afterwards every
non-empty attachment (component cidx, pin pidx) has its wire point equal to the
world position of pin pidx derived from the component's post-drag position and
rotation.  The hypothesis is the scene's own data-model invariant (parallel
lists of equal length, attachments naming existing pins). -/
theorem attachment_invariant_after_drag
    (components : List Component) (wires : List Wire) (sel : List Nat)
    (drag_offsets : List Vec2) (mouse_world : Vec2)
    (h : scene_wf components wires = true) :
    ∃ wires', (drag_step components wires sel drag_offsets mouse_world).2 = some wires' ∧
      ∀ w ∈ wires', ∀ (i cidx pidx : Nat),
        w.attachments[i]? = some (some (cidx, pidx)) →
        ∃ comp,
          (drag_step components wires sel drag_offsets mouse_world).1[cidx]? = some comp ∧
          w.points[i]? = (get_component_pins comp)[pidx]? := by
  have hwf2 : scene_wf (drag_step components wires sel drag_offsets mouse_world).1 wires
      = true := by
    unfold scene_wf at h ⊢
    rw [List.all_eq_true] at h ⊢
    intro w hw
    exact wire_wf_of_type_eq components _
      (fun j => drag_writes_preserve_type _ components j) w (h w hw)
  obtain ⟨wires', heq, hprop⟩ :=
    update_wire_attachments_safe (drag_step components wires sel drag_offsets mouse_world).1
      wires hwf2
  exact ⟨wires', heq, hprop⟩

/-- witness for C2: one resistor at the origin with a wire attached to its
first pin, dragged to mouse position (77,2) (snapping the component to
(80,0)). -/
theorem attachment_invariant_after_drag_witness :
    ∃ wires',
      (drag_step [snapDemo1] [dragDemoWire] [0] [⟨0, 0⟩] ⟨77, 2⟩).2 = some wires' ∧
      ∀ w ∈ wires', ∀ (i cidx pidx : Nat),
        w.attachments[i]? = some (some (cidx, pidx)) →
        ∃ comp,
          (drag_step [snapDemo1] [dragDemoWire] [0] [⟨0, 0⟩] ⟨77, 2⟩).1[cidx]?
            = some comp ∧
          w.points[i]? = (get_component_pins comp)[pidx]? :=
  attachment_invariant_after_drag [snapDemo1] [dragDemoWire]
    [0] [⟨0, 0⟩] ⟨77, 2⟩ (by decide)
